import Mathlib

/-!
Shallow embedding of the Sailinit port-registry core (portmanager.go and the
port-state helpers) together with proofs about its operations.

Machine integers: Go `int` is 64-bit, but every value manipulated by this core
(suffixes, the high-water mark, parsed port numbers) stays far below the
overflow bound in all claims, so suffixes are modelled as unbounded `Int`.

The file system is modelled explicitly by a `World`: the registry state file
(either missing, readable JSON content, or unreadable/corrupt bytes), the set
of paths for which `os.Stat` succeeds, and the readable files with their
contents.  JSON (un)marshalling of the `PortState` struct is modelled on a
small JSON value type, mirroring `encoding/json`: unknown object fields are
ignored, a missing `max_suffix` or `projects` field keeps the pre-initialized
default, a type mismatch is an unmarshal error, and duplicate object keys are
processed in order (later wins).
-/

/-- Association list lookup, modelling Go map indexing `m[k]`.  Keys of a Go
map are unique, so on the well-formed lists produced by this development the
first match is the only match. -/
def lookupAssoc {α : Type} : List (String × α) → String → Option α
  | [], _ => none
  | kv :: rest, k => if kv.1 = k then some kv.2 else lookupAssoc rest k

/-- Association list update, modelling Go map assignment `m[k] = v`: replace
the binding of `k` if present, otherwise add a new binding. -/
def insertAssoc (k : String) (v : Int) : List (String × Int) → List (String × Int)
  | [] => [(k, v)]
  | kv :: rest => if kv.1 = k then (k, v) :: rest else kv :: insertAssoc k v rest

/-- Association list deletion, modelling Go `delete(m, k)`. -/
def eraseAssoc (k : String) (l : List (String × Int)) : List (String × Int) :=
  l.filter (fun kv => kv.1 ≠ k)

/-- The keys of an association list. -/
def keysOf {α : Type} (l : List (String × α)) : List String := l.map Prod.fst

/-- Minimal JSON value type, sufficient for the persisted registry file:
`{"max_suffix": <int>, "projects": {"<path>": <int>, ...}}`. -/
inductive Json where
  | num (n : Int)
  | txt (s : String)
  | obj (fields : List (String × Json))

/-- The persisted registry aggregate, translated from Go struct `PortState`
(`MaxSuffix int` with JSON key `max_suffix`; `Projects map[string]int` with
JSON key `projects`, modelled as an association list). -/
structure PortState where
  maxSuffix : Int
  projects : List (String × Int)
  deriving DecidableEq

/-- JSON serialization of `PortState`, modelling `json.MarshalIndent`. -/
def PortState.toJson (s : PortState) : Json :=
  Json.obj [("max_suffix", Json.num s.maxSuffix),
            ("projects", Json.obj (s.projects.map (fun kv => (kv.1, Json.num kv.2))))]

/-- Reads a JSON object as a Go `map[string]int`, starting from the map built
so far: every value must be an integer; duplicate keys overwrite. -/
def projectsOfJsonFields : List (String × Json) → List (String × Int) → Option (List (String × Int))
  | [], acc => some acc
  | (key, v) :: rest, acc =>
    match v with
    | Json.num n => projectsOfJsonFields rest (insertAssoc key n acc)
    | _ => none

/-- Applies the fields of a JSON object to a pre-initialized `PortState`, as
`json.Unmarshal` does: known fields must have the right type, unknown fields
are ignored, absent fields keep the default. -/
def applyFields : List (String × Json) → PortState → Option PortState
  | [], st => some st
  | (key, v) :: rest, st =>
    if key = "max_suffix" then
      match v with
      | Json.num n => applyFields rest { st with maxSuffix := n }
      | _ => none
    else if key = "projects" then
      match v with
      | Json.obj fs =>
        match projectsOfJsonFields fs [] with
        | some ps => applyFields rest { st with projects := ps }
        | none => none
      | _ => none
    else applyFields rest st

/-- JSON deserialization of `PortState`, modelling `json.Unmarshal` into a
struct pre-initialized with `MaxSuffix 0` and an empty `Projects` map. -/
def stateOfJson : Json → Option PortState
  | Json.obj fs => applyFields fs { maxSuffix := 0, projects := [] }
  | _ => none

/-- The registry state file as seen by `os.ReadFile` + `json.Unmarshal`:
missing, present with parseable JSON content, or unreadable (read error or
bytes that are not valid JSON). -/
inductive StoreFile where
  | missing
  | content (j : Json)
  | unreadable

/-- Errors surfaced by the registry core. -/
inductive PmError where
  | storeRead
  | notRegistered (path : String)
  deriving DecidableEq

/-- The ambient file-system state: the current working directory (used by
`filepath.Abs`), the registry state file, the paths for which `os.Stat`
succeeds, and the readable files with their contents. -/
structure World where
  cwd : String
  stateFile : StoreFile
  existing : List String
  files : List (String × String)

/-- Translation of `loadPortState`: a missing file yields a fresh empty state
with `existed = false`; a read error or malformed content is an error;
otherwise the parsed state with `existed = true`. -/
def loadPortState (w : World) : Except PmError (PortState × Bool) :=
  match w.stateFile with
  | StoreFile.missing => .ok ({ maxSuffix := 0, projects := [] }, false)
  | StoreFile.unreadable => .error PmError.storeRead
  | StoreFile.content j =>
    match stateOfJson j with
    | some st => .ok (st, true)
    | none => .error PmError.storeRead

/-- Translation of `(*PortState).save`: marshal the state and overwrite the
state file.  Write errors are not modelled (no claim concerns them). -/
def PortState.save (s : PortState) (w : World) : World :=
  { w with stateFile := StoreFile.content s.toJson }

/-- Two dots, the parent-directory path element. -/
def dotdot : List Char := ['.', '.']

/-- Splits a character list on a separator, keeping empty pieces, as
`strings.Split` does. -/
def splitCharAux (sep : Char) (cur : List Char) : List Char → List (List Char)
  | [] => [cur.reverse]
  | c :: rest =>
    if c = sep then cur.reverse :: splitCharAux sep [] rest
    else splitCharAux sep (c :: cur) rest

/-- Joins path elements with slashes. -/
def joinSlash : List (List Char) → List Char
  | [] => []
  | [c] => c
  | c :: rest => c ++ '/' :: joinSlash rest

/-- Lexical path cleaning, modelling Go `path/filepath.Clean` on Unix paths:
collapse repeated slashes, drop `.` elements, resolve `..` against preceding
elements (dropping leading `..` of a rooted path). -/
def cleanPathL (p : List Char) : List Char :=
  let rooted := p.head? == some '/'
  let comps := (splitCharAux '/' [] p).filter (fun c => !c.isEmpty && c != ['.'])
  let parts := (comps.foldl (fun st c =>
      if c = dotdot then
        match st with
        | [] => if rooted then [] else [dotdot]
        | top :: rest => if top = dotdot then c :: top :: rest else rest
      else c :: st) []).reverse
  if rooted then '/' :: joinSlash parts
  else if parts.isEmpty then ['.'] else joinSlash parts

/-- String wrapper for `cleanPathL`. -/
def cleanPath (p : String) : String := String.mk (cleanPathL p.data)

/-- Models Go `path/filepath.Abs`: an already-absolute path is cleaned, a
relative path is joined to the working directory and cleaned.  The error case
(working directory unavailable) is not modelled: in this embedding `Abs` is
total, which matches every execution the claims quantify over. -/
def filepathAbs (cwd p : String) : String :=
  if p.data.head? == some '/' then cleanPath p
  else cleanPath (cwd ++ "/" ++ p)

/-- Models Go `path/filepath.Join` for two elements: concatenate with a slash
and clean (empty elements are dropped, as `Join` does). -/
def filepathJoin (a b : String) : String :=
  if a.data.isEmpty then cleanPath b
  else if b.data.isEmpty then cleanPath a
  else cleanPath (a ++ "/" ++ b)

/-- Strips a single trailing carriage return, as `splitLines` does to each
line it emits. -/
def stripCR : List Char → List Char
  | [] => []
  | ['\r'] => []
  | c :: rest => c :: stripCR rest

/-- Accumulator loop of `splitLines`: cut at every newline byte, stripping one
trailing `\r` per line; a nonempty final fragment is emitted as a line. -/
def splitLinesAux (cur : List Char) : List Char → List (List Char)
  | [] => if cur.isEmpty then [] else [stripCR cur.reverse]
  | c :: rest =>
    if c = '\n' then stripCR cur.reverse :: splitLinesAux [] rest
    else splitLinesAux (c :: cur) rest

/-- Translation of `splitLines` (portmanager.go): line-oriented split handling
both `\n` and `\r\n` endings, with no empty final line for trailing `\n`. -/
def splitLines (s : String) : List (List Char) := splitLinesAux [] s.data

/-- ASCII whitespace, modelling the characters `strings.TrimSpace` and the
`fmt` scanner treat as space in the environment files at issue. -/
def isSpaceChar (c : Char) : Bool :=
  c == ' ' || c == '\t' || c == '\n' || c == '\r' || c == '\x0b' || c == '\x0c'

/-- Models `strings.TrimSpace` on a single line. -/
def trimSpace (l : List Char) : List Char :=
  ((l.dropWhile isSpaceChar).reverse.dropWhile isSpaceChar).reverse

/-- The key prefix the env scanner looks for. -/
def appPortKey : List Char := "APP_PORT=".data

/-- Numeric value of a decimal digit character. -/
def digitVal (c : Char) : Nat := c.toNat - 48

/-- Accumulates the maximal run of leading decimal digits. -/
def digitsValAux (acc : Nat) : List Char → Nat
  | [] => acc
  | c :: rest => if c.isDigit then digitsValAux (acc * 10 + digitVal c) rest else acc

/-- Value of the maximal leading digit run; `none` when there is no leading
digit. -/
def digitsVal : List Char → Option Nat
  | [] => none
  | c :: rest => if c.isDigit then some (digitsValAux (digitVal c) rest) else none

/-- Models `fmt.Sscanf(line, "APP_PORT=%d", &p)` applied to the text after the
matched `APP_PORT=` literal: `%d` skips leading whitespace, accepts an
optional sign and one or more decimal digits, and ignores trailing input. -/
def scanIntAfterEq (l : List Char) : Option Int :=
  match l.dropWhile isSpaceChar with
  | '-' :: rest => (digitsVal rest).map (fun n => -(n : Int))
  | '+' :: rest => (digitsVal rest).map (fun n => (n : Int))
  | rest => (digitsVal rest).map (fun n => (n : Int))

/-- One iteration of the `extractSuffixFromEnv` loop body: trim the line,
require the `APP_PORT=` prefix, parse the integer, and keep it only when it is
at least 8000; the recovered suffix is the parsed value minus 8000. -/
def lineSuffix (line : List Char) : Option Int :=
  let t := trimSpace line
  if appPortKey.isPrefixOf t then
    match scanIntAfterEq (t.drop appPortKey.length) with
    | some p => if 8000 ≤ p then some (p - 8000) else none
    | none => none
  else none

/-- The scan loop of `extractSuffixFromEnv`: first recovering line wins. -/
def envLoop : List (List Char) → Int × Bool
  | [] => (0, false)
  | line :: rest =>
    match lineSuffix line with
    | some s => (s, true)
    | none => envLoop rest

/-- Models `os.Stat(p)` success. -/
def statExists (w : World) (p : String) : Bool := w.existing.contains p

/-- Translation of `extractSuffixFromEnv`: an unreadable file recovers
nothing; otherwise scan the split lines top to bottom. -/
def extractSuffixFromEnv (w : World) (envPath : String) : Int × Bool :=
  match lookupAssoc w.files envPath with
  | none => (0, false)
  | some content => envLoop (splitLines content)

/-- Translation of `getSuggestedSuffix`: registry entry first, then a suffix
recovered from the project's `.env` file, then `maxSuffix + 1`. -/
def getSuggestedSuffix (w : World) (projectDir : String) : Except PmError (Int × Bool × Bool) :=
  match loadPortState w with
  | .error e => .error e
  | .ok (state, existed) =>
    match lookupAssoc state.projects (filepathAbs w.cwd projectDir) with
    | some suffix => .ok (suffix, true, existed)
    | none =>
      if statExists w (filepathJoin projectDir ".env") then
        match extractSuffixFromEnv w (filepathJoin projectDir ".env") with
        | (suffix, true) => .ok (suffix, true, existed)
        | (_, false) => .ok (state.maxSuffix + 1, false, existed)
      else .ok (state.maxSuffix + 1, false, existed)

/-- Translation of `saveProjectSuffix`: record the suffix under the absolute
project path, raise the high-water mark if exceeded, and persist. -/
def saveProjectSuffix (w : World) (projectDir : String) (suffix : Int) :
    World × Option PmError :=
  match loadPortState w with
  | .error e => (w, some e)
  | .ok (state, _) =>
    (PortState.save
      { maxSuffix := if state.maxSuffix < suffix then suffix else state.maxSuffix,
        projects := insertAssoc (filepathAbs w.cwd projectDir) suffix state.projects } w,
     none)

/-- The registry scan of `isSuffixInUseByOther`: first entry of a different
path holding the same suffix.  The list order stands in for Go's unspecified
map iteration order. -/
def scanConflict (absDir : String) (suffix : Int) : List (String × Int) → String × Bool
  | [] => ("", false)
  | (path, s) :: rest =>
    if s = suffix ∧ path ≠ absDir then (path, true) else scanConflict absDir suffix rest

/-- Translation of `isSuffixInUseByOther`: any failure to load the registry
reports no conflict. -/
def isSuffixInUseByOther (w : World) (projectDir : String) (suffix : Int) : String × Bool :=
  match loadPortState w with
  | .error _ => ("", false)
  | .ok (state, _) => scanConflict (filepathAbs w.cwd projectDir) suffix state.projects

/-- The highest valid suffix (65535 - 18100, the highest base port),
translated from `MaxPortSuffix`. -/
def MaxPortSuffix : Int := 47435

/-- Translation of `ValidateSuffix`: `none` means valid, `some msg` is the
returned error. -/
def ValidateSuffix (suffix : Int) : Option String :=
  if suffix < 0 then
    some ("suffix must be non-negative, got " ++ toString suffix)
  else if MaxPortSuffix < suffix then
    some ("suffix " ++ toString suffix ++ " too large: highest port would be " ++
      toString (18100 + suffix) ++ " (max 65535)")
  else none

/-- Translation of `RemoveProject`: error (and no write) when the absolute
path has no entry, otherwise delete the entry and persist. -/
def RemoveProject (w : World) (projectDir : String) : World × Option PmError :=
  match loadPortState w with
  | .error e => (w, some e)
  | .ok (state, _) =>
    match lookupAssoc state.projects (filepathAbs w.cwd projectDir) with
    | none => (w, some (PmError.notRegistered (filepathAbs w.cwd projectDir)))
    | some _ =>
      (PortState.save
        { state with projects := eraseAssoc (filepathAbs w.cwd projectDir) state.projects } w,
       none)

/-- Translation of `CleanOrphanedProjects`: collect the registered paths whose
`os.Stat` reports not-exist, delete each, and persist only when at least one
entry was removed; the count of removals is returned. -/
def CleanOrphanedProjects (w : World) : World × Nat × Option PmError :=
  match loadPortState w with
  | .error e => (w, 0, some e)
  | .ok (state, _) =>
    let removed := keysOf (state.projects.filter (fun kv => !statExists w kv.1))
    let remaining := removed.foldl (fun ps k => eraseAssoc k ps) state.projects
    if 0 < removed.length then
      (PortState.save { state with projects := remaining } w, removed.length, none)
    else (w, removed.length, none)

/-- Empty file system: no registry file, no directories, no files. -/
def emptyWorld : World :=
  { cwd := "/", stateFile := StoreFile.missing, existing := [], files := [] }

/-- The registry of the spec's collision scenario. -/
def regAB : PortState := { maxSuffix := 52, projects := [("/a", 51), ("/b", 52)] }

/-- A world whose registry file holds `regAB` and whose project directories
both exist. -/
def regWorldAB : World :=
  { cwd := "/", stateFile := StoreFile.content regAB.toJson,
    existing := ["/a", "/b"], files := [] }

/-- The world after `saveProjectSuffix("/a", 48)` on an empty file system. -/
def afterSave48 : World := (saveProjectSuffix emptyWorld "/a" 48).1

/-- Empty registry, but `/a/.env` exists containing `APP_PORT=8051`. -/
def envWorld51 : World :=
  { cwd := "/", stateFile := StoreFile.missing, existing := ["/a", "/a/.env"],
    files := [("/a/.env", "APP_PORT=8051")] }

/-- Empty registry, but `/a/.env` exists containing `APP_PORT=500`. -/
def envWorld500 : World :=
  { cwd := "/", stateFile := StoreFile.missing, existing := ["/a", "/a/.env"],
    files := [("/a/.env", "APP_PORT=500")] }

/-- Registry `regAB` with `/b` deleted from disk. -/
def orphanWorld : World :=
  { cwd := "/", stateFile := StoreFile.content regAB.toJson,
    existing := ["/a"], files := [] }

/-- A world whose registry file exists but cannot be read or parsed. -/
def badWorld : World :=
  { cwd := "/", stateFile := StoreFile.unreadable, existing := [], files := [] }

theorem lookupAssoc_insert_self (k : String) (v : Int) (l : List (String × Int)) :
    lookupAssoc (insertAssoc k v l) k = some v := by
  induction l with
  | nil => simp [insertAssoc, lookupAssoc]
  | cons kv rest ih =>
    by_cases h : kv.1 = k
    · simp [insertAssoc, h, lookupAssoc]
    · simp [insertAssoc, h, lookupAssoc, ih]

theorem lookupAssoc_insert_ne (k k' : String) (v : Int) (l : List (String × Int))
    (h : k' ≠ k) : lookupAssoc (insertAssoc k v l) k' = lookupAssoc l k' := by
  have hk' : ¬k = k' := fun h' => h h'.symm
  induction l with
  | nil => simp [insertAssoc, lookupAssoc, hk']
  | cons kv rest ih =>
    by_cases hk : kv.1 = k
    · subst hk
      simp [insertAssoc, lookupAssoc, hk']
    · simp [insertAssoc, hk, lookupAssoc, ih]

theorem mem_keysOf_insert {k x : String} {v : Int} {l : List (String × Int)}
    (hmem : x ∈ keysOf (insertAssoc k v l)) : x ∈ keysOf l ∨ x = k := by
  induction l with
  | nil => simpa [insertAssoc, keysOf] using hmem
  | cons kv rest ih =>
    by_cases hk : kv.1 = k
    · rw [show insertAssoc k v (kv :: rest) = (k, v) :: rest from by
        simp [insertAssoc, hk]] at hmem
      simp only [keysOf, List.map_cons, List.mem_cons] at hmem ⊢
      rcases hmem with h1 | h1
      · exact Or.inr h1
      · exact Or.inl (Or.inr h1)
    · rw [show insertAssoc k v (kv :: rest) = kv :: insertAssoc k v rest from by
        simp [insertAssoc, hk]] at hmem
      simp only [keysOf, List.map_cons, List.mem_cons] at hmem ⊢
      rcases hmem with h1 | h1
      · exact Or.inl (Or.inl h1)
      · rcases ih (by simpa [keysOf] using h1) with h2 | h2
        · exact Or.inl (Or.inr (by simpa [keysOf] using h2))
        · exact Or.inr h2

theorem nodup_keysOf_insert (k : String) (v : Int) (l : List (String × Int))
    (h : (keysOf l).Nodup) : (keysOf (insertAssoc k v l)).Nodup := by
  induction l with
  | nil => simp [insertAssoc, keysOf]
  | cons kv rest ih =>
    simp only [keysOf, List.map_cons, List.nodup_cons] at h
    by_cases hk : kv.1 = k
    · rw [show insertAssoc k v (kv :: rest) = (k, v) :: rest from by
        simp [insertAssoc, hk]]
      simp only [keysOf, List.map_cons, List.nodup_cons]
      exact ⟨hk ▸ h.1, h.2⟩
    · rw [show insertAssoc k v (kv :: rest) = kv :: insertAssoc k v rest from by
        simp [insertAssoc, hk]]
      simp only [keysOf, List.map_cons, List.nodup_cons]
      refine ⟨fun hmem => ?_, ih h.2⟩
      rcases mem_keysOf_insert (l := rest) (by simpa [keysOf] using hmem) with h' | h'
      · exact h.1 (by simpa [keysOf] using h')
      · exact hk h'

theorem insertAssoc_not_mem (k : String) (v : Int) (l : List (String × Int))
    (h : k ∉ keysOf l) : insertAssoc k v l = l ++ [(k, v)] := by
  induction l with
  | nil => simp [insertAssoc]
  | cons kv rest ih =>
    simp only [keysOf, List.map_cons, List.mem_cons] at h
    push_neg at h
    have hne : ¬kv.1 = k := fun h' => h.1 h'.symm
    simp [insertAssoc, hne, ih (by simpa [keysOf] using h.2)]

theorem projectsOfJsonFields_roundtrip :
    ∀ (l acc : List (String × Int)), (keysOf (acc ++ l)).Nodup →
      projectsOfJsonFields (l.map (fun kv => (kv.1, Json.num kv.2))) acc = some (acc ++ l) := by
  intro l
  induction l with
  | nil => intro acc _; simp [projectsOfJsonFields]
  | cons kv rest ih =>
    intro acc h
    have hsplit : keysOf (acc ++ kv :: rest) = keysOf acc ++ kv.1 :: keysOf rest := by
      simp [keysOf]
    rw [hsplit] at h
    have hknot : kv.1 ∉ keysOf acc := by
      intro hmem
      rcases List.nodup_append.mp h with ⟨_, _, hdisj⟩
      exact hdisj hmem (by simp)
    simp only [List.map_cons, projectsOfJsonFields]
    rw [insertAssoc_not_mem kv.1 kv.2 acc hknot]
    have hre : acc ++ [(kv.1, kv.2)] ++ rest = acc ++ kv :: rest := by
      simp
    have h' : (keysOf (acc ++ [(kv.1, kv.2)] ++ rest)).Nodup := by
      rw [hre, hsplit]; exact h
    rw [ih (acc ++ [(kv.1, kv.2)]) (by simpa using h')]
    rw [show acc ++ [(kv.1, kv.2)] ++ rest = acc ++ kv :: rest from hre]

theorem stateOfJson_toJson (st : PortState) (h : (keysOf st.projects).Nodup) :
    stateOfJson st.toJson = some st := by
  have hp := projectsOfJsonFields_roundtrip st.projects [] (by simpa using h)
  simp only [List.nil_append] at hp
  simp [stateOfJson, PortState.toJson, applyFields, hp]

theorem projectsOfJsonFields_nodup :
    ∀ (fs : List (String × Json)) (acc ps : List (String × Int)), (keysOf acc).Nodup →
      projectsOfJsonFields fs acc = some ps → (keysOf ps).Nodup := by
  intro fs
  induction fs with
  | nil =>
    intro acc ps hacc h
    simp only [projectsOfJsonFields, Option.some.injEq] at h
    exact h ▸ hacc
  | cons f rest ih =>
    intro acc ps hacc h
    obtain ⟨key, v⟩ := f
    simp only [projectsOfJsonFields] at h
    split at h
    · exact ih _ ps (nodup_keysOf_insert _ _ acc hacc) h
    · simp at h

theorem applyFields_nodup :
    ∀ (fs : List (String × Json)) (st st' : PortState), (keysOf st.projects).Nodup →
      applyFields fs st = some st' → (keysOf st'.projects).Nodup := by
  intro fs
  induction fs with
  | nil =>
    intro st st' hst h
    simp only [applyFields, Option.some.injEq] at h
    exact h ▸ hst
  | cons f rest ih =>
    intro st st' hst h
    obtain ⟨key, v⟩ := f
    simp only [applyFields] at h
    split at h
    · split at h
      · next n => exact ih { st with maxSuffix := n } st' hst h
      · simp at h
    · split at h
      · split at h
        · split at h
          · next ps hps =>
            exact ih _ st' (projectsOfJsonFields_nodup _ [] ps (by simp [keysOf]) hps) h
          · simp at h
        · simp at h
      · exact ih st st' hst h

theorem loadPortState_nodup (w : World) (st : PortState) (ex : Bool)
    (h : loadPortState w = .ok (st, ex)) : (keysOf st.projects).Nodup := by
  unfold loadPortState at h
  split at h
  · simp only [Except.ok.injEq, Prod.mk.injEq] at h
    rw [← h.1]
    simp [keysOf]
  · simp at h
  · next j hw =>
    split at h
    · next st0 hj =>
      simp only [Except.ok.injEq, Prod.mk.injEq] at h
      cases j with
      | obj fs =>
        simp only [stateOfJson] at hj
        exact h.1 ▸ applyFields_nodup fs _ st0 (by simp [keysOf]) hj
      | num n => simp [stateOfJson] at hj
      | txt s => simp [stateOfJson] at hj
    · simp at h

theorem loadPortState_save (st : PortState) (w : World)
    (h : (keysOf st.projects).Nodup) : loadPortState (st.save w) = .ok (st, true) := by
  simp [PortState.save, loadPortState, stateOfJson_toJson st h]

theorem getSuggestedSuffix_ok (w : World) (p : String) (st : PortState) (ex : Bool)
    (h : loadPortState w = .ok (st, ex)) :
    getSuggestedSuffix w p =
      match lookupAssoc st.projects (filepathAbs w.cwd p) with
      | some suffix => .ok (suffix, true, ex)
      | none =>
        if statExists w (filepathJoin p ".env") then
          match extractSuffixFromEnv w (filepathJoin p ".env") with
          | (suffix, true) => .ok (suffix, true, ex)
          | (_, false) => .ok (st.maxSuffix + 1, false, ex)
        else .ok (st.maxSuffix + 1, false, ex) := by
  unfold getSuggestedSuffix
  rw [h]

theorem saveProjectSuffix_ok (w : World) (p : String) (s : Int) (st : PortState) (ex : Bool)
    (h : loadPortState w = .ok (st, ex)) :
    saveProjectSuffix w p s =
      (PortState.save
        { maxSuffix := if st.maxSuffix < s then s else st.maxSuffix,
          projects := insertAssoc (filepathAbs w.cwd p) s st.projects } w, none) := by
  unfold saveProjectSuffix
  rw [h]

theorem saveProjectSuffix_err (w : World) (p : String) (s : Int) (e : PmError)
    (h : loadPortState w = .error e) : saveProjectSuffix w p s = (w, some e) := by
  unfold saveProjectSuffix
  rw [h]

theorem isSuffixInUseByOther_ok (w : World) (p : String) (s : Int) (st : PortState) (ex : Bool)
    (h : loadPortState w = .ok (st, ex)) :
    isSuffixInUseByOther w p s = scanConflict (filepathAbs w.cwd p) s st.projects := by
  unfold isSuffixInUseByOther
  rw [h]

theorem envLoop_eq_findSome (lines : List (List Char)) :
    envLoop lines =
      match lines.findSome? lineSuffix with
      | some s => (s, true)
      | none => (0, false) := by
  induction lines with
  | nil => rfl
  | cons line rest ih =>
    cases hls : lineSuffix line with
    | some s => simp [envLoop, List.findSome?_cons, hls]
    | none => simp [envLoop, List.findSome?_cons, hls, ih]

/-- C1: `getSuggestedSuffix` follows the strict priority order: an existing
registry assignment for the project's absolute path is returned with
`isExistingAssignment = true`; otherwise a suffix recovered from the
project's `.env` file is returned with `isExistingAssignment = true`;
otherwise `maxSuffix + 1` with `isExistingAssignment = false`.  On an empty
registry with no persisted file and no recoverable environment entry,
`suggest("/a")` returns `(1, false, false)`. -/
theorem getSuggestedSuffix_priority :
    (∀ w p st ex s, loadPortState w = .ok (st, ex) →
      lookupAssoc st.projects (filepathAbs w.cwd p) = some s →
      getSuggestedSuffix w p = .ok (s, true, ex))
    ∧ (∀ w p st ex s, loadPortState w = .ok (st, ex) →
      lookupAssoc st.projects (filepathAbs w.cwd p) = none →
      statExists w (filepathJoin p ".env") = true →
      extractSuffixFromEnv w (filepathJoin p ".env") = (s, true) →
      getSuggestedSuffix w p = .ok (s, true, ex))
    ∧ (∀ w p st ex, loadPortState w = .ok (st, ex) →
      lookupAssoc st.projects (filepathAbs w.cwd p) = none →
      (statExists w (filepathJoin p ".env") = false ∨
        (extractSuffixFromEnv w (filepathJoin p ".env")).2 = false) →
      getSuggestedSuffix w p = .ok (st.maxSuffix + 1, false, ex))
    ∧ getSuggestedSuffix emptyWorld "/a" = .ok (1, false, false) := by
  refine ⟨?_, ?_, ?_, rfl⟩
  · intro w p st ex s h1 h2
    rw [getSuggestedSuffix_ok w p st ex h1, h2]
  · intro w p st ex s h1 h2 h3 h4
    rw [getSuggestedSuffix_ok w p st ex h1, h2, h3, h4]
    rfl
  · intro w p st ex h1 h2 h3
    rw [getSuggestedSuffix_ok w p st ex h1, h2]
    rcases h3 with h3 | h3
    · rw [h3]
      rfl
    · have h4 : extractSuffixFromEnv w (filepathJoin p ".env") =
          ((extractSuffixFromEnv w (filepathJoin p ".env")).1, false) := by
        rw [← h3]
      cases hstat : statExists w (filepathJoin p ".env") with
      | false => rfl
      | true =>
        rw [h4]
        rfl

/-- C1 witness: the first-priority branch applied to the concrete registry
holding `/a ↦ 51`. -/
theorem getSuggestedSuffix_priority_witness :
    getSuggestedSuffix regWorldAB "/a" = .ok (51, true, true) :=
  getSuggestedSuffix_priority.1 regWorldAB "/a" regAB true 51 rfl rfl

/-- C3: `ValidateSuffix` succeeds exactly on `0 ≤ s ≤ 47435`; `47435` is
accepted while `47436` and `-1` are rejected with a range error. -/
theorem validateSuffix_range :
    (∀ s : Int, ValidateSuffix s = none ↔ 0 ≤ s ∧ s ≤ MaxPortSuffix)
    ∧ ValidateSuffix 47435 = none
    ∧ (ValidateSuffix 47436).isSome = true
    ∧ (ValidateSuffix (-1)).isSome = true := by
  refine ⟨?_, rfl, rfl, rfl⟩
  intro s
  unfold ValidateSuffix MaxPortSuffix
  constructor
  · intro h
    by_cases h1 : s < 0
    · rw [if_pos h1] at h
      simp at h
    · rw [if_neg h1] at h
      by_cases h2 : (47435 : Int) < s
      · rw [if_pos h2] at h
        simp at h
      · omega
  · rintro ⟨h1, h2⟩
    rw [if_neg (by omega), if_neg (by omega)]

/-- C4: environment recovery scans the split lines top to bottom and returns
the first line whose trimmed text starts with `APP_PORT=`, whose value parses
as a decimal integer at least 8000, yielding that value minus 8000; a file
whose only entry is `APP_PORT=8051` recovers suffix 51, while `APP_PORT=500`
recovers nothing and suggestion falls through to `maxSuffix + 1`. -/
theorem extractSuffixFromEnv_scan :
    (∀ w path content, lookupAssoc w.files path = some content →
      extractSuffixFromEnv w path =
        match (splitLines content).findSome? lineSuffix with
        | some s => (s, true)
        | none => (0, false))
    ∧ getSuggestedSuffix envWorld51 "/a" = .ok (51, true, false)
    ∧ getSuggestedSuffix envWorld500 "/a" = .ok (1, false, false) := by
  refine ⟨?_, rfl, rfl⟩
  intro w path content h
  unfold extractSuffixFromEnv
  rw [h]
  exact envLoop_eq_findSome _

/-- C4 witness: the scan equation applied to the concrete environment file
`APP_PORT=8051`, evaluating to a recovered suffix of 51. -/
theorem extractSuffixFromEnv_scan_witness :
    extractSuffixFromEnv envWorld51 "/a/.env" = (51, true) :=
  (extractSuffixFromEnv_scan.1 envWorld51 "/a/.env" "APP_PORT=8051" rfl).trans rfl

/-- C7: saving a registry and loading it back yields the same registry (same
`maxSuffix`, same assignments) with `existedOnDisk = true`; the hypothesis
states that the assignment keys are distinct, which holds of every registry
since Go map keys are unique. -/
theorem save_load_roundtrip (st : PortState) (w : World)
    (h : (keysOf st.projects).Nodup) :
    loadPortState (PortState.save st w) = .ok (st, true) :=
  loadPortState_save st w h

/-- C7 witness: round-trip evaluated on the concrete two-project registry. -/
theorem save_load_roundtrip_witness :
    loadPortState (PortState.save regAB emptyWorld) = .ok (regAB, true) :=
  save_load_roundtrip regAB emptyWorld (by decide)

/-- C10: whenever loading the registry fails (state file present but
unreadable or malformed), the collision checker reports no conflict instead
of surfacing the store error. -/
theorem isSuffixInUseByOther_load_error :
    ∀ w p s e, loadPortState w = .error e →
      isSuffixInUseByOther w p s = ("", false) := by
  intro w p s e h
  unfold isSuffixInUseByOther
  rw [h]

/-- C10 witness: a corrupted registry file reports no conflict. -/
theorem isSuffixInUseByOther_load_error_witness :
    isSuffixInUseByOther badWorld "/a" 51 = ("", false) :=
  isSuffixInUseByOther_load_error badWorld "/a" 51 PmError.storeRead rfl

/-- C2: after a successful `saveProjectSuffix(p, s)`, the persisted registry
has `maxSuffix ≥ s` and a subsequent `getSuggestedSuffix(p)` returns `s` as
an existing assignment from a now-existing store; concretely, after saving
`/a ↦ 48` on an empty store, `suggest("/a") = (48, true, true)` and
`suggest("/b") = (49, false, true)`. -/
theorem saveProjectSuffix_then_suggest :
    (∀ w p s w', saveProjectSuffix w p s = (w', none) →
      ∃ st, loadPortState w' = .ok (st, true) ∧ s ≤ st.maxSuffix ∧
        getSuggestedSuffix w' p = .ok (s, true, true))
    ∧ getSuggestedSuffix afterSave48 "/a" = .ok (48, true, true)
    ∧ getSuggestedSuffix afterSave48 "/b" = .ok (49, false, true) := by
  refine ⟨?_, rfl, rfl⟩
  intro w p s w' h
  cases hload : loadPortState w with
  | error e =>
    rw [saveProjectSuffix_err w p s e hload] at h
    simp at h
  | ok stex =>
    obtain ⟨st0, ex⟩ := stex
    rw [saveProjectSuffix_ok w p s st0 ex hload] at h
    simp only [Prod.mk.injEq] at h
    obtain ⟨hw, -⟩ := h
    subst hw
    have hn := loadPortState_nodup w st0 ex hload
    have hn' : (keysOf (insertAssoc (filepathAbs w.cwd p) s st0.projects)).Nodup :=
      nodup_keysOf_insert _ s _ hn
    have hload' := loadPortState_save
      { maxSuffix := if st0.maxSuffix < s then s else st0.maxSuffix,
        projects := insertAssoc (filepathAbs w.cwd p) s st0.projects } w hn'
    refine ⟨_, hload', ?_, ?_⟩
    · dsimp only
      split <;> omega
    · rw [getSuggestedSuffix_ok _ p _ true hload']
      dsimp only
      rw [show filepathAbs (PortState.save
          { maxSuffix := if st0.maxSuffix < s then s else st0.maxSuffix,
            projects := insertAssoc (filepathAbs w.cwd p) s st0.projects } w).cwd p =
          filepathAbs w.cwd p from rfl]
      rw [lookupAssoc_insert_self]

/-- C2 witness: the general statement applied to saving `/a ↦ 48` on the
empty store. -/
theorem saveProjectSuffix_then_suggest_witness :
    ∃ st, loadPortState afterSave48 = .ok (st, true) ∧ (48 : Int) ≤ st.maxSuffix ∧
      getSuggestedSuffix afterSave48 "/a" = .ok (48, true, true) :=
  saveProjectSuffix_then_suggest.1 emptyWorld "/a" 48 afterSave48 rfl

theorem scanConflict_of_no_other (absDir : String) (s : Int) :
    ∀ l : List (String × Int), (∀ kv ∈ l, kv.2 = s → kv.1 = absDir) →
      scanConflict absDir s l = ("", false) := by
  intro l
  induction l with
  | nil => intro _; rfl
  | cons kv rest ih =>
    intro h
    obtain ⟨path, sv⟩ := kv
    have hc : ¬(sv = s ∧ path ≠ absDir) := by
      rintro ⟨hs, hp⟩
      exact hp (h (path, sv) (by simp) hs)
    simp only [scanConflict, if_neg hc]
    exact ih (fun kv hm => h kv (by simp [hm]))

theorem scanConflict_of_other (absDir : String) (s : Int) :
    ∀ l : List (String × Int), (∃ kv ∈ l, kv.2 = s ∧ kv.1 ≠ absDir) →
      ∃ q, scanConflict absDir s l = (q, true) ∧ (q, s) ∈ l ∧ q ≠ absDir := by
  intro l
  induction l with
  | nil =>
    rintro ⟨kv, hmem, -⟩
    simp at hmem
  | cons kv rest ih =>
    rintro ⟨kv', hmem, h1, h2⟩
    obtain ⟨path, sv⟩ := kv
    by_cases hc : sv = s ∧ path ≠ absDir
    · refine ⟨path, ?_, ?_, hc.2⟩
      · simp only [scanConflict, if_pos hc]
      · rw [← hc.1]
        simp
    · rcases List.mem_cons.mp hmem with heq | hmem'
      · exfalso
        apply hc
        rw [heq] at h1 h2
        exact ⟨h1, h2⟩
      · obtain ⟨q, hq1, hq2, hq3⟩ := ih ⟨kv', hmem', h1, h2⟩
        refine ⟨q, ?_, by simp [hq2], hq3⟩
        simp only [scanConflict, if_neg hc]
        exact hq1

/-- C5: the collision checker reports no conflict when no assignment other
than the project's own holds the suffix, and reports a genuinely conflicting
path otherwise; on the registry `{/a ↦ 51, /b ↦ 52}`,
`findConflict("/c", 51) = ("/a", true)` and `findConflict("/a", 51)` finds
none. -/
theorem isSuffixInUseByOther_conflicts :
    (∀ w p s st ex, loadPortState w = .ok (st, ex) →
      (∀ kv ∈ st.projects, kv.2 = s → kv.1 = filepathAbs w.cwd p) →
      isSuffixInUseByOther w p s = ("", false))
    ∧ (∀ w p s st ex, loadPortState w = .ok (st, ex) →
      (∃ kv ∈ st.projects, kv.2 = s ∧ kv.1 ≠ filepathAbs w.cwd p) →
      ∃ q, isSuffixInUseByOther w p s = (q, true) ∧ (q, s) ∈ st.projects ∧
        q ≠ filepathAbs w.cwd p)
    ∧ isSuffixInUseByOther regWorldAB "/c" 51 = ("/a", true)
    ∧ isSuffixInUseByOther regWorldAB "/a" 51 = ("", false) := by
  refine ⟨?_, ?_, rfl, rfl⟩
  · intro w p s st ex h1 h2
    rw [isSuffixInUseByOther_ok w p s st ex h1]
    exact scanConflict_of_no_other _ s st.projects h2
  · intro w p s st ex h1 h2
    rw [isSuffixInUseByOther_ok w p s st ex h1]
    exact scanConflict_of_other _ s st.projects h2

/-- C5 witness: the no-other-holder direction applied to `regWorldAB` at a
suffix nobody holds. -/
theorem isSuffixInUseByOther_conflicts_witness :
    isSuffixInUseByOther regWorldAB "/a" 99 = ("", false) :=
  isSuffixInUseByOther_conflicts.1 regWorldAB "/a" 99 regAB true rfl (by decide)

theorem removeProject_ok (w : World) (p : String) (st : PortState) (ex : Bool)
    (h : loadPortState w = .ok (st, ex)) :
    RemoveProject w p =
      match lookupAssoc st.projects (filepathAbs w.cwd p) with
      | none => (w, some (PmError.notRegistered (filepathAbs w.cwd p)))
      | some _ =>
        (PortState.save
          { st with projects := eraseAssoc (filepathAbs w.cwd p) st.projects } w, none) := by
  unfold RemoveProject
  rw [h]

theorem lookupAssoc_erase_self (k : String) (l : List (String × Int)) :
    lookupAssoc (eraseAssoc k l) k = none := by
  induction l with
  | nil => rfl
  | cons kv rest ih =>
    by_cases h : kv.1 = k
    · simpa [eraseAssoc, List.filter_cons, h] using ih
    · simp only [eraseAssoc, List.filter_cons] at ih ⊢
      simpa [h, lookupAssoc] using ih

theorem lookupAssoc_erase_ne (k q : String) (l : List (String × Int)) (h : q ≠ k) :
    lookupAssoc (eraseAssoc k l) q = lookupAssoc l q := by
  induction l with
  | nil => rfl
  | cons kv rest ih =>
    simp only [eraseAssoc, List.filter_cons] at ih ⊢
    have hkq : ¬k = q := fun h' => h h'.symm
    by_cases hk : kv.1 = k
    · simpa [hk, lookupAssoc, hkq, decide_not] using ih
    · simp only [ne_eq, decide_not] at ih
      by_cases hq : kv.1 = q <;> simp [hk, hq, h, hkq, lookupAssoc, ih]

theorem nodup_keysOf_filter (pred : String × Int → Bool) (l : List (String × Int))
    (h : (keysOf l).Nodup) : (keysOf (l.filter pred)).Nodup :=
  h.sublist ((List.filter_sublist l).map Prod.fst)

/-- C9: removing an unregistered project fails with the NotRegistered error
and leaves the world (hence the persisted registry) unchanged; removing a
registered project deletes exactly that entry, keeps every other entry and
the high-water mark, and persists immediately. -/
theorem removeProject_not_registered :
    (∀ w p st ex, loadPortState w = .ok (st, ex) →
      lookupAssoc st.projects (filepathAbs w.cwd p) = none →
      RemoveProject w p = (w, some (PmError.notRegistered (filepathAbs w.cwd p))))
    ∧ (∀ w p st ex s0, loadPortState w = .ok (st, ex) →
      lookupAssoc st.projects (filepathAbs w.cwd p) = some s0 →
      ∃ st', RemoveProject w p = (PortState.save st' w, none) ∧
        loadPortState (PortState.save st' w) = .ok (st', true) ∧
        st'.maxSuffix = st.maxSuffix ∧
        lookupAssoc st'.projects (filepathAbs w.cwd p) = none ∧
        ∀ q, q ≠ filepathAbs w.cwd p →
          lookupAssoc st'.projects q = lookupAssoc st.projects q) := by
  constructor
  · intro w p st ex h hl
    rw [removeProject_ok w p st ex h, hl]
  · intro w p st ex s0 h hl
    have hn := loadPortState_nodup w st ex h
    have hn' : (keysOf (eraseAssoc (filepathAbs w.cwd p) st.projects)).Nodup :=
      nodup_keysOf_filter _ st.projects hn
    refine ⟨{ st with projects := eraseAssoc (filepathAbs w.cwd p) st.projects },
      ?_, loadPortState_save _ w hn', rfl,
      lookupAssoc_erase_self _ _, fun q hq => lookupAssoc_erase_ne _ q _ hq⟩
    rw [removeProject_ok w p st ex h, hl]

/-- C9 witness: removing the unregistered `/c` from the two-project registry
fails with NotRegistered and returns the world unchanged. -/
theorem removeProject_not_registered_witness :
    RemoveProject regWorldAB "/c" = (regWorldAB, some (PmError.notRegistered "/c")) :=
  removeProject_not_registered.1 regWorldAB "/c" regAB true rfl rfl

theorem filter_filter_and (p q : String × Int → Bool) (l : List (String × Int)) :
    (l.filter p).filter q = l.filter (fun kv => p kv && q kv) := by
  induction l with
  | nil => rfl
  | cons kv rest ih =>
    by_cases hp : p kv <;> by_cases hq : q kv <;>
      simp [List.filter_cons, hp, hq, ih]

theorem foldl_erase_eq_filter (ks : List String) :
    ∀ ps : List (String × Int),
      ks.foldl (fun acc k => eraseAssoc k acc) ps =
        ps.filter (fun kv => !decide (kv.1 ∈ ks)) := by
  induction ks with
  | nil =>
    intro ps
    simp
  | cons k ks ih =>
    intro ps
    simp only [List.foldl_cons]
    rw [ih (eraseAssoc k ps)]
    unfold eraseAssoc
    rw [filter_filter_and]
    apply List.filter_congr
    intro kv _
    by_cases h1 : kv.1 = k <;> by_cases h2 : kv.1 ∈ ks <;> simp [h1, h2]

theorem keysOf_nodup_inj {l : List (String × Int)} (h : (keysOf l).Nodup)
    {kv kv' : String × Int} (h1 : kv ∈ l) (h2 : kv' ∈ l) (h3 : kv.1 = kv'.1) :
    kv = kv' := by
  induction l with
  | nil => simp at h1
  | cons a rest ih =>
    simp only [keysOf, List.map_cons, List.nodup_cons] at h
    rcases List.mem_cons.mp h1 with rfl | h1'
    · rcases List.mem_cons.mp h2 with rfl | h2'
      · rfl
      · have hmem : kv.1 ∈ List.map Prod.fst rest := by
          rw [h3]
          exact List.mem_map_of_mem Prod.fst h2'
        exact absurd hmem h.1
    · rcases List.mem_cons.mp h2 with rfl | h2'
      · have hmem : kv'.1 ∈ List.map Prod.fst rest := by
          rw [← h3]
          exact List.mem_map_of_mem Prod.fst h1'
        exact absurd hmem h.1
      · exact ih h.2 h1' h2'

theorem keysOf_filter_mem (pred : String × Int → Bool) (l : List (String × Int))
    (hnd : (keysOf l).Nodup) (kv : String × Int) (hkv : kv ∈ l) :
    kv.1 ∈ keysOf (l.filter (fun kv' => !pred kv')) ↔ pred kv = false := by
  constructor
  · intro hmem
    simp only [keysOf] at hmem
    obtain ⟨kv', hkv'mem, hkey⟩ := List.mem_map.mp hmem
    have hkv'l : kv' ∈ l := List.mem_of_mem_filter hkv'mem
    have hpred : (!pred kv') = true := (List.mem_filter.mp hkv'mem).2
    have heq : kv = kv' := keysOf_nodup_inj hnd hkv hkv'l hkey.symm
    rw [heq]
    simpa using hpred
  · intro hp
    simp only [keysOf]
    apply List.mem_map_of_mem Prod.fst
    rw [List.mem_filter]
    refine ⟨hkv, ?_⟩
    rw [hp]
    rfl

theorem clean_remaining (w : World) (l : List (String × Int)) (hnd : (keysOf l).Nodup) :
    (keysOf (l.filter (fun kv => !statExists w kv.1))).foldl
        (fun ps k => eraseAssoc k ps) l =
      l.filter (fun kv => statExists w kv.1) := by
  rw [foldl_erase_eq_filter]
  apply List.filter_congr
  intro kv hkv
  have hiff := keysOf_filter_mem (fun kv => statExists w kv.1) l hnd kv hkv
  by_cases hs : statExists w kv.1 = true
  · have hnotmem : kv.1 ∉ keysOf (l.filter (fun kv' => !statExists w kv'.1)) := by
      intro hmem
      have hmem' : statExists w kv.1 = false := hiff.mp hmem
      rw [hs] at hmem'
      cases hmem'
    simp [hnotmem, hs]
  · have hfalse : statExists w kv.1 = false := by
      cases hval : statExists w kv.1
      · rfl
      · exact absurd hval hs
    have hmem : kv.1 ∈ keysOf (l.filter (fun kv' => !statExists w kv'.1)) :=
      hiff.mpr hfalse
    simp [hmem, hfalse]

theorem cleanOrphanedProjects_ok (w : World) (st : PortState) (ex : Bool)
    (h : loadPortState w = .ok (st, ex)) :
    CleanOrphanedProjects w =
      ((if 0 < (st.projects.filter (fun kv => !statExists w kv.1)).length then
          PortState.save
            { maxSuffix := st.maxSuffix,
              projects := st.projects.filter (fun kv => statExists w kv.1) } w
        else w),
       (st.projects.filter (fun kv => !statExists w kv.1)).length, none) := by
  have hnd := loadPortState_nodup w st ex h
  unfold CleanOrphanedProjects
  rw [h]
  dsimp only
  rw [clean_remaining w st.projects hnd]
  simp only [keysOf, List.length_map]
  split <;> rfl

theorem cleanOrphanedProjects_no_orphans (w2 : World) (st2 : PortState) (ex2 : Bool)
    (h : loadPortState w2 = .ok (st2, ex2))
    (hnone : st2.projects.filter (fun kv => !statExists w2 kv.1) = []) :
    CleanOrphanedProjects w2 = (w2, 0, none) := by
  rw [cleanOrphanedProjects_ok w2 st2 ex2 h, hnone]
  simp

/-- C6: the persisted high-water mark never decreases: whatever registry any
of `saveProjectSuffix`, `RemoveProject` or `CleanOrphanedProjects` leaves
behind has a `maxSuffix` at least the one it loaded. -/
theorem maxSuffix_monotone :
    (∀ w p s st ex st' ex', loadPortState w = .ok (st, ex) →
      loadPortState (saveProjectSuffix w p s).1 = .ok (st', ex') →
      st.maxSuffix ≤ st'.maxSuffix)
    ∧ (∀ w p st ex st' ex', loadPortState w = .ok (st, ex) →
      loadPortState (RemoveProject w p).1 = .ok (st', ex') →
      st.maxSuffix ≤ st'.maxSuffix)
    ∧ (∀ w st ex st' ex', loadPortState w = .ok (st, ex) →
      loadPortState (CleanOrphanedProjects w).1 = .ok (st', ex') →
      st.maxSuffix ≤ st'.maxSuffix) := by
  refine ⟨?_, ?_, ?_⟩
  · intro w p s st ex st' ex' h1 h2
    rw [saveProjectSuffix_ok w p s st ex h1] at h2
    dsimp only at h2
    have hn' := nodup_keysOf_insert (filepathAbs w.cwd p) s st.projects
      (loadPortState_nodup w st ex h1)
    rw [loadPortState_save _ w hn'] at h2
    simp only [Except.ok.injEq, Prod.mk.injEq] at h2
    rw [← h2.1]
    dsimp only
    split <;> omega
  · intro w p st ex st' ex' h1 h2
    rw [removeProject_ok w p st ex h1] at h2
    cases hl : lookupAssoc st.projects (filepathAbs w.cwd p) with
    | none =>
      rw [hl] at h2
      dsimp only at h2
      rw [h1] at h2
      simp only [Except.ok.injEq, Prod.mk.injEq] at h2
      rw [← h2.1]
    | some s0 =>
      rw [hl] at h2
      dsimp only at h2
      have hn' : (keysOf (eraseAssoc (filepathAbs w.cwd p) st.projects)).Nodup :=
        nodup_keysOf_filter _ st.projects (loadPortState_nodup w st ex h1)
      rw [loadPortState_save _ w hn'] at h2
      simp only [Except.ok.injEq, Prod.mk.injEq] at h2
      rw [← h2.1]
  · intro w st ex st' ex' h1 h2
    rw [cleanOrphanedProjects_ok w st ex h1] at h2
    dsimp only at h2
    by_cases hlen : 0 < (st.projects.filter (fun kv => !statExists w kv.1)).length
    · rw [if_pos hlen] at h2
      have hn' := nodup_keysOf_filter (fun kv => statExists w kv.1) st.projects
        (loadPortState_nodup w st ex h1)
      rw [loadPortState_save _ w hn'] at h2
      simp only [Except.ok.injEq, Prod.mk.injEq] at h2
      rw [← h2.1]
    · rw [if_neg hlen] at h2
      rw [h1] at h2
      simp only [Except.ok.injEq, Prod.mk.injEq] at h2
      rw [← h2.1]

/-- C6 witness: the save conjunct applied to saving suffix 48 on the empty
registry, whose loaded high-water mark 0 is below the persisted 48. -/
theorem maxSuffix_monotone_witness :
    ({ maxSuffix := 0, projects := [] } : PortState).maxSuffix ≤
      ({ maxSuffix := 48, projects := [("/a", 48)] } : PortState).maxSuffix :=
  maxSuffix_monotone.1 emptyWorld "/a" 48 { maxSuffix := 0, projects := [] } false
    { maxSuffix := 48, projects := [("/a", 48)] } true rfl rfl

/-- C8: `CleanOrphanedProjects` removes exactly the assignments whose path no
longer exists, keeps the others and the high-water mark, returns the count
removed, persists only when at least one entry was removed, and a second run
immediately afterwards removes 0. -/
theorem cleanOrphanedProjects_removes_orphans :
    ∀ w st ex, loadPortState w = .ok (st, ex) →
      CleanOrphanedProjects w =
        ((if 0 < (st.projects.filter (fun kv => !statExists w kv.1)).length then
            PortState.save
              { maxSuffix := st.maxSuffix,
                projects := st.projects.filter (fun kv => statExists w kv.1) } w
          else w),
         (st.projects.filter (fun kv => !statExists w kv.1)).length, none)
      ∧ CleanOrphanedProjects (CleanOrphanedProjects w).1 =
          ((CleanOrphanedProjects w).1, 0, none) := by
  intro w st ex h
  have hclean := cleanOrphanedProjects_ok w st ex h
  refine ⟨hclean, ?_⟩
  by_cases hlen : 0 < (st.projects.filter (fun kv => !statExists w kv.1)).length
  · have h1 : (CleanOrphanedProjects w).1 =
        PortState.save
          { maxSuffix := st.maxSuffix,
            projects := st.projects.filter (fun kv => statExists w kv.1) } w := by
      rw [hclean]
      dsimp only
      rw [if_pos hlen]
    have hn' := nodup_keysOf_filter (fun kv => statExists w kv.1) st.projects
      (loadPortState_nodup w st ex h)
    have hload' := loadPortState_save
      { maxSuffix := st.maxSuffix,
        projects := st.projects.filter (fun kv => statExists w kv.1) } w hn'
    have hnone : ∀ ps : List (String × Int),
        (ps.filter (fun kv => statExists w kv.1)).filter (fun kv => !statExists w kv.1) = [] := by
      intro ps
      rw [filter_filter_and]
      have hpt : ∀ kv : String × Int, (statExists w kv.1 && !statExists w kv.1) = false :=
        fun kv => Bool.and_not_self _
      simp [hpt]
    rw [h1]
    exact cleanOrphanedProjects_no_orphans _ _ _ hload' (hnone st.projects)
  · have h1 : (CleanOrphanedProjects w).1 = w := by
      rw [hclean]
      dsimp only
      rw [if_neg hlen]
    have hnone : st.projects.filter (fun kv => !statExists w kv.1) = [] :=
      List.length_eq_zero.mp (by omega)
    rw [h1]
    exact cleanOrphanedProjects_no_orphans w st ex h hnone

/-- C8 witness: cleaning the registry `{/a ↦ 51, /b ↦ 52}` when `/b` is gone
from disk removes exactly that entry, and a second run removes nothing. -/
theorem cleanOrphanedProjects_removes_orphans_witness :
    CleanOrphanedProjects orphanWorld =
      ((if 0 < ((regAB.projects.filter (fun kv => !statExists orphanWorld kv.1)).length) then
          PortState.save
            { maxSuffix := regAB.maxSuffix,
              projects := regAB.projects.filter (fun kv => statExists orphanWorld kv.1) }
            orphanWorld
        else orphanWorld),
       (regAB.projects.filter (fun kv => !statExists orphanWorld kv.1)).length, none)
    ∧ CleanOrphanedProjects (CleanOrphanedProjects orphanWorld).1 =
        ((CleanOrphanedProjects orphanWorld).1, 0, none) :=
  cleanOrphanedProjects_removes_orphans orphanWorld regAB true rfl
